import Mathlib

/-!
Shallow embedding of `create_package.py` (ClipMaster packaging script).

The script walks a source directory with `os.walk`, prunes subdirectories
whose *name* contains an exclusion substring, skips files whose *full path
string* contains an exclusion substring, and writes every remaining file
into a zip archive under its path relative to the source directory.
Afterwards it reopens the archive and prints at most the first 20 entry
names plus a count of the remainder.

Modelling choices:
* a filename / path string is a `List Char` (`Name`); a full path string is
  the components joined by `'/'` (`pathStr`), matching Python's
  `str(Path(root) / file)`;
* the filesystem is a finite tree `FSTree` whose nodes carry the directory
  listing in enumeration order (`os.walk` yields `dirs` and `files` in the
  order the OS enumerates them);
* archive entries are the `arcname`s, i.e. component lists relative to the
  source directory (`filepath.relative_to(EXTENSION_DIR)`);
* console output is a list of `Line` events, one constructor per `print`
  statement of the script;
* the ambient filesystem state relevant to the script is the optional
  source tree (`None` = `EXTENSION_DIR` does not exist) and the optional
  pre-existing file at the output path `PACKAGE_NAME`.
-/

namespace ClipMaster

/-- A file or directory name, or a path string: a string as a list of
characters. -/
abbrev Name := List Char

/-- `EXTENSION_UUID = "clipmaster@gnome.extension"` (also the name of
`EXTENSION_DIR`). -/
def EXTENSION_UUID : Name := "clipmaster@gnome.extension".data

/-- `EXCLUDE_PATTERNS` from the script. -/
def EXCLUDE_PATTERNS : List Name :=
  [".git".data, ".DS_Store".data, "~".data, ".swp".data, ".swo".data,
   "gschemas.compiled".data]

/-- `should_exclude(filepath)`: some pattern is a literal substring of the
path string (`pattern in str(filepath)`). -/
def should_exclude (pats : List Name) (filepath : Name) : Bool :=
  pats.any fun pat => decide (pat <:+: filepath)

/-- Join path components with `'/'`, as `str(Path(...))` does. -/
def pathStr : List Name → Name
  | [] => []
  | [c] => c
  | c :: cs => c ++ '/' :: pathStr cs

/-- A directory tree: subdirectories (name, subtree) and plain files, each
in the order the filesystem enumerates them. -/
inductive FSTree where
  | node (dirs : List (Name × FSTree)) (files : List Name)

mutual
/-- Entries (arcnames, relative to the source dir) written by the
`os.walk` loop when the walk is currently at relative path `rel` below the
walk root named `root`.  The loop body first writes the non-excluded files
of the current directory (`should_exclude` applied to the full path
string), then recurses into the surviving subdirectories in order. -/
def walkFrom (pats : List Name) (root : Name) (rel : List Name) :
    FSTree → List (List Name)
  | .node dirs files =>
      ((files.filter fun f =>
          !(should_exclude pats (pathStr (root :: (rel ++ [f]))))).map
        (fun f => rel ++ [f]))
      ++ walkDirs pats root rel dirs

/-- Descend into the subdirectory list; `dirs[:] = [d for d in dirs if not
should_exclude(d)]` prunes a subtree exactly when the directory *name*
matches, realised here by the `if`. -/
def walkDirs (pats : List Name) (root : Name) (rel : List Name) :
    List (Name × FSTree) → List (List Name)
  | [] => []
  | d :: ds =>
      (if should_exclude pats d.1 then []
       else walkFrom pats root (rel ++ [d.1]) d.2)
      ++ walkDirs pats root rel ds
end

/-- `FileAt t p`: the (nonempty) component list `p` addresses a plain file
in the tree `t`. -/
def FileAt : FSTree → List Name → Prop
  | _, [] => False
  | .node _ files, [f] => f ∈ files
  | .node dirs _, d :: c :: rest => ∃ t2, (d, t2) ∈ dirs ∧ FileAt t2 (c :: rest)

mutual
/-- Well-formed tree: sibling file names and sibling directory names are
each duplicate-free (as on a real filesystem), recursively. -/
def WF : FSTree → Prop
  | .node dirs files => files.Nodup ∧ (dirs.map Prod.fst).Nodup ∧ WFDirs dirs

/-- All subtrees in a directory listing are well-formed. -/
def WFDirs : List (Name × FSTree) → Prop
  | [] => True
  | d :: ds => WF d.2 ∧ WFDirs ds
end

/-- One console event per `print` statement of the script. -/
inductive Line where
  | banner
  | blank
  | errorMissing (dir : Name)
  | creatingZip
  | added (arcname : List Name)
  | packageCreated
  | contentsHeader
  | entryName (arcname : List Name)
  | moreFiles (n : Nat)
  | nextStepsHeader
  | nextStep (n : Nat)
deriving DecidableEq

/-- Result of one run: the returned boolean, the file occupying the
output path `PACKAGE_NAME` afterwards (an archive as its entry list), and
the console output. -/
structure PackResult where
  success : Bool
  archive : Option (List (List Name))
  output : List Line
deriving DecidableEq

/-- `create_package()`.  `sourceDir` is the tree at `EXTENSION_DIR`
(`none` when the directory does not exist), `existing` the pre-existing
file at `PACKAGE_NAME`.  On the missing-directory path the function
returns `False` before touching the output path; otherwise the old
package is removed, the walk writes the archive, and the archive is
reopened to print at most the first 20 entries plus a remainder count. -/
def create_package (pats : List Name) (root : Name)
    (sourceDir : Option FSTree) (existing : Option (List (List Name))) :
    PackResult :=
  match sourceDir with
  | none =>
      { success := false
        archive := existing
        output := [.banner, .blank, .errorMissing root] }
  | some t =>
      let entries := walkFrom pats root [] t
      { success := true
        archive := some entries
        output :=
          [.banner, .blank, .creatingZip]
          ++ entries.map .added
          ++ [.blank, .packageCreated, .blank, .contentsHeader]
          ++ ((entries.take 20).map .entryName)
          ++ (if 20 < entries.length then [.moreFiles (entries.length - 20)]
              else [])
          ++ [.blank, .nextStepsHeader, .nextStep 1, .nextStep 2, .nextStep 3,
              .blank] }

mutual
/-- Two trees describe the same directory contents, enumerated in possibly
different orders (the OS enumeration order `os.walk` reflects is
unspecified). -/
inductive TreeEquiv : FSTree → FSTree → Prop where
  | node {dirs1 dirs2 : List (Name × FSTree)} {files1 files2 : List Name} :
      files1.Perm files2 → DirsEquiv dirs1 dirs2 →
      TreeEquiv (.node dirs1 files1) (.node dirs2 files2)

/-- Permutation of directory listings whose entries carry equal names and
equivalent subtrees (the constructors mirror `List.Perm`). -/
inductive DirsEquiv : List (Name × FSTree) → List (Name × FSTree) → Prop where
  | nil : DirsEquiv [] []
  | cons (n : Name) {t1 t2 : FSTree} {ds1 ds2 : List (Name × FSTree)} :
      TreeEquiv t1 t2 → DirsEquiv ds1 ds2 →
      DirsEquiv ((n, t1) :: ds1) ((n, t2) :: ds2)
  | swap (d1 d2 : Name × FSTree) (ds : List (Name × FSTree)) :
      DirsEquiv (d1 :: d2 :: ds) (d2 :: d1 :: ds)
  | trans {ds1 ds2 ds3 : List (Name × FSTree)} :
      DirsEquiv ds1 ds2 → DirsEquiv ds2 ds3 → DirsEquiv ds1 ds3
end

/-- The entry names printed in the package-contents summary
(`for info in zipf.infolist()[:20]: print(info.filename)`). -/
def printedEntries (ls : List Line) : List (List Name) :=
  ls.filterMap fun l =>
    match l with
    | .entryName a => some a
    | _ => none

/-- The remainder counts printed by the summary
(`print(f"... and \x7bn\x7d more files")`). -/
def moreFilesCounts (ls : List Line) : List Nat :=
  ls.filterMap fun l =>
    match l with
    | .moreFiles n => some n
    | _ => none

/-- Names of the immediate children (subdirectories and files) of a
tree's root. -/
def rootChildNames : FSTree → List Name
  | .node dirs files => dirs.map Prod.fst ++ files

/-! ## Helper lemmas -/

/-- Induction over `FSTree` through the nested list of subdirectories. -/
theorem FSTree.ind (motive : FSTree → Prop)
    (h : ∀ dirs files, (∀ d ∈ dirs, motive d.2) → motive (.node dirs files)) :
    ∀ t, motive t
  | .node dirs files => h dirs files fun d _hd => FSTree.ind motive h d.2
termination_by t => sizeOf t
decreasing_by
  have h1 := List.sizeOf_lt_of_mem _hd
  obtain ⟨n, t2⟩ := d
  simp only [Prod.mk.sizeOf_spec] at h1
  simp only [FSTree.node.sizeOf_spec]
  omega

theorem fileAt_ne_nil {t : FSTree} {q : List Name} (h : FileAt t q) : q ≠ [] := by
  intro hq
  subst hq
  cases t
  simp [FileAt] at h

theorem pathStr_cons_cons (c c2 : Name) (cs : List Name) :
    pathStr (c :: c2 :: cs) = c ++ '/' :: pathStr (c2 :: cs) := by
  simp [pathStr]

/-- Every component of a joined path is a substring of the path string. -/
theorem pathStr_substr_of_mem {c : Name} :
    ∀ {comps : List Name}, c ∈ comps → c <:+: pathStr comps := by
  intro comps
  induction comps with
  | nil => simp
  | cons a cs ih =>
      intro h
      rcases List.mem_cons.mp h with h1 | h2
      · subst h1
        cases cs with
        | nil => simp [pathStr]
        | cons c2 cs2 =>
            rw [pathStr_cons_cons]
            exact List.IsPrefix.isInfix (List.prefix_append c _)
      · cases cs with
        | nil => simp at h2
        | cons c2 cs2 =>
            rw [pathStr_cons_cons]
            refine (ih h2).trans ?_
            exact List.IsSuffix.isInfix
              ((List.suffix_cons '/' _).trans (List.suffix_append a _))

/-- The joined tail of a path is a substring of the longer joined path. -/
theorem pathStr_tail_substr (root : Name) {p : List Name} (hp : p ≠ []) :
    pathStr p <:+: pathStr (root :: p) := by
  cases p with
  | nil => exact absurd rfl hp
  | cons c rest =>
      rw [pathStr_cons_cons]
      exact List.IsSuffix.isInfix
        ((List.suffix_cons '/' _).trans (List.suffix_append root _))

/-- `should_exclude` unfolded to its substring quantifier. -/
theorem should_exclude_iff (pats : List Name) (s : Name) :
    should_exclude pats s = true ↔ ∃ pat ∈ pats, pat <:+: s := by
  simp [should_exclude]

/-- Membership in the entries produced while descending a directory list. -/
theorem mem_walkDirs_iff (pats : List Name) (root : Name) (rel p : List Name)
    (ds : List (Name × FSTree)) :
    p ∈ walkDirs pats root rel ds ↔
      ∃ d ∈ ds, should_exclude pats d.1 = false ∧
        p ∈ walkFrom pats root (rel ++ [d.1]) d.2 := by
  induction ds with
  | nil =>
      simp only [walkDirs, List.not_mem_nil, false_and, exists_false]
  | cons d ds ih =>
      rw [walkDirs]
      rw [List.mem_append, ih]
      constructor
      · rintro (h1 | ⟨d2, hd2, hex, hmem⟩)
        · by_cases hx : should_exclude pats d.1
          · simp [hx] at h1
          · refine ⟨d, List.mem_cons_self d ds, ?_, ?_⟩
            · simpa using hx
            · simpa [hx] using h1
        · exact ⟨d2, List.mem_cons_of_mem d hd2, hex, hmem⟩
      · rintro ⟨d2, hd2, hex, hmem⟩
        rcases List.mem_cons.mp hd2 with h1 | h2
        · subst h1
          left
          simp [hex, hmem]
        · exact Or.inr ⟨d2, h2, hex, hmem⟩

/-- Characterisation of the walk's output: `p` is an entry of the archive
iff `p` addresses a file, no directory *name* on the way down matches a
pattern, and the file's full path *string* matches no pattern. -/
theorem mem_walkFrom_iff (pats : List Name) (root : Name) :
    ∀ (t : FSTree) (rel p : List Name),
      p ∈ walkFrom pats root rel t ↔
        ∃ q, p = rel ++ q ∧ FileAt t q ∧
          (∀ d ∈ q.dropLast, should_exclude pats d = false) ∧
          should_exclude pats (pathStr (root :: (rel ++ q))) = false := by
  intro t
  induction t using FSTree.ind with
  | h dirs files ih =>
      intro rel p
      rw [walkFrom]
      rw [List.mem_append, mem_walkDirs_iff]
      constructor
      · rintro (h1 | ⟨d, hd, hname, hmem⟩)
        · obtain ⟨f, hf, rfl⟩ := List.mem_map.mp h1
          refine ⟨[f], rfl, ?_, by simp, ?_⟩
          · simpa [FileAt] using (List.mem_filter.mp hf).1
          · simpa using (List.mem_filter.mp hf).2
        · obtain ⟨q, rfl, hfile, hdirs, hpath⟩ := (ih d hd _ p).mp hmem
          obtain ⟨n, t2⟩ := d
          obtain ⟨c, rest, rfl⟩ : ∃ c rest, q = c :: rest := by
            cases q with
            | nil => exact absurd rfl (fileAt_ne_nil hfile)
            | cons c rest => exact ⟨c, rest, rfl⟩
          refine ⟨n :: c :: rest, by simp, ?_, ?_, ?_⟩
          · exact ⟨t2, hd, hfile⟩
          · intro e he
            rcases List.mem_cons.mp (by simpa using he) with h1 | h2
            · subst h1; exact hname
            · exact hdirs e h2
          · simpa using hpath
      · rintro ⟨q, rfl, hfile, hdirs, hpath⟩
        cases q with
        | nil => exact absurd rfl (fileAt_ne_nil hfile)
        | cons c rest =>
            cases rest with
            | nil =>
                left
                refine List.mem_map.mpr ⟨c, List.mem_filter.mpr ⟨?_, ?_⟩, rfl⟩
                · simpa [FileAt] using hfile
                · simpa using hpath
            | cons c2 rest2 =>
                obtain ⟨t2, ht2, hfa⟩ : ∃ t2, (c, t2) ∈ dirs ∧ FileAt t2 (c2 :: rest2) := by
                  simpa [FileAt] using hfile
                right
                refine ⟨(c, t2), ht2, ?_, ?_⟩
                · exact hdirs c (by simp)
                · refine (ih (c, t2) ht2 _ _).mpr ⟨c2 :: rest2, by simp, hfa, ?_, ?_⟩
                  · intro e he
                    refine hdirs e ?_
                    simp only [List.dropLast_cons₂, List.mem_cons]
                    exact Or.inr (by simpa using he)
                  · simpa using hpath

/-- Every entry produced below relative path `rel` extends `rel` by at
least one component. -/
theorem walkFrom_shape {pats : List Name} {root : Name} {rel : List Name}
    {t : FSTree} {p : List Name} (h : p ∈ walkFrom pats root rel t) :
    ∃ q, p = rel ++ q ∧ q ≠ [] := by
  obtain ⟨q, hq, hf, -, -⟩ := (mem_walkFrom_iff pats root t rel p).mp h
  exact ⟨q, hq, fileAt_ne_nil hf⟩

theorem WFDirs_mem : ∀ {ds : List (Name × FSTree)}, WFDirs ds →
    ∀ {d : Name × FSTree}, d ∈ ds → WF d.2 := by
  intro ds
  induction ds with
  | nil => intro _ d hd; simp at hd
  | cons e ds ih =>
      intro h d hd
      obtain ⟨h1, h2⟩ : WF e.2 ∧ WFDirs ds := by simpa [WFDirs] using h
      rcases List.mem_cons.mp hd with rfl | hd2
      · exact h1
      · exact ih h2 hd2

/-- Sibling directories with duplicate-free names contribute disjoint,
duplicate-free entry blocks. -/
theorem walkDirs_nodup (pats : List Name) (root : Name) :
    ∀ (ds : List (Name × FSTree)) (rel : List Name),
      (∀ d ∈ ds, ∀ rel2, (walkFrom pats root rel2 d.2).Nodup) →
      (ds.map Prod.fst).Nodup →
      (walkDirs pats root rel ds).Nodup := by
  intro ds
  induction ds with
  | nil => intro rel _ _; simp [walkDirs]
  | cons d ds ih =>
      intro rel hall hn
      rw [List.map_cons, List.nodup_cons] at hn
      have hn2 : (ds.map Prod.fst).Nodup := hn.2
      have hhead : d.1 ∉ ds.map Prod.fst := hn.1
      rw [walkDirs]
      refine List.Nodup.append ?_ ?_ ?_
      · by_cases hx : should_exclude pats d.1
        · simp [hx]
        · simpa [hx] using hall d (List.mem_cons_self d ds) (rel ++ [d.1])
      · exact ih rel (fun d2 hd2 => hall d2 (List.mem_cons_of_mem d hd2)) hn2
      · intro p hp1 hp2
        by_cases hx : should_exclude pats d.1
        · simp [hx] at hp1
        · rw [if_neg (by simp [hx])] at hp1
          obtain ⟨q, hq, -⟩ := walkFrom_shape hp1
          obtain ⟨d2, hd2, -, hmem2⟩ := (mem_walkDirs_iff pats root rel p ds).mp hp2
          obtain ⟨q2, hq2, -⟩ := walkFrom_shape hmem2
          have heq : rel ++ d.1 :: q = rel ++ d2.1 :: q2 := by
            rw [List.append_assoc, List.singleton_append] at hq hq2
            exact hq.symm.trans hq2
          have hname : d.1 = d2.1 := (List.cons.injEq _ _ _ _).mp
            (List.append_cancel_left heq) |>.1
          exact hhead (hname ▸ List.mem_map.mpr ⟨d2, hd2, rfl⟩)

/-- On a well-formed tree the walk emits duplicate-free entries. -/
theorem walkFrom_nodup (pats : List Name) (root : Name) :
    ∀ t : FSTree, WF t → ∀ rel : List Name, (walkFrom pats root rel t).Nodup := by
  intro t
  induction t using FSTree.ind with
  | h dirs files ih =>
      intro hwf rel
      obtain ⟨hf, hn, hds⟩ : files.Nodup ∧ (dirs.map Prod.fst).Nodup ∧ WFDirs dirs := by
        simpa [WF] using hwf
      rw [walkFrom]
      refine List.Nodup.append ?_ ?_ ?_
      · refine List.Nodup.map ?_ (hf.filter _)
        intro a b hab
        simpa using hab
      · exact walkDirs_nodup pats root dirs rel
          (fun d hd rel2 => ih d hd (WFDirs_mem hds hd) rel2) hn
      · intro p hp1 hp2
        obtain ⟨f, -, rfl⟩ := List.mem_map.mp hp1
        obtain ⟨d, hd, -, hmem⟩ := (mem_walkDirs_iff pats root rel _ dirs).mp hp2
        obtain ⟨q, heq, hq⟩ := walkFrom_shape hmem
        have hlen : (rel ++ [f]).length = ((rel ++ [d.1]) ++ q).length := by rw [heq]
        simp only [List.length_append, List.length_cons, List.length_nil] at hlen
        exact hq (List.eq_nil_of_length_eq_zero (by omega))

/-- Walking equivalent trees (same contents, different enumeration order)
yields permuted entry lists. -/
theorem walkFrom_perm (pats : List Name) (root : Name) (t1 t2 : FSTree)
    (h : TreeEquiv t1 t2) (rel : List Name) :
    (walkFrom pats root rel t1).Perm (walkFrom pats root rel t2) := by
  revert rel
  refine @TreeEquiv.rec
    (fun t1 t2 _ => ∀ rel : List Name,
      (walkFrom pats root rel t1).Perm (walkFrom pats root rel t2))
    (fun ds1 ds2 _ => ∀ rel : List Name,
      (walkDirs pats root rel ds1).Perm (walkDirs pats root rel ds2))
    ?_ ?_ ?_ ?_ ?_ t1 t2 h
  · intro dirs1 dirs2 files1 files2 hf _hd ihd rel
    rw [walkFrom, walkFrom]
    exact ((hf.filter _).map _).append (ihd rel)
  · intro _rel
    exact List.Perm.refl _
  · intro n u1 u2 ds1 ds2 _ht _hd iht ihd rel
    rw [walkDirs, walkDirs]
    refine List.Perm.append ?_ (ihd rel)
    by_cases hx : should_exclude pats n
    · simp [hx]
    · simpa [hx] using iht (rel ++ [n])
  · intro d1 d2 ds rel
    simp only [walkDirs]
    rw [← List.append_assoc, ← List.append_assoc]
    exact List.perm_append_comm.append_right _
  · intro ds1 ds2 ds3 _h1 _h2 ih1 ih2 rel
    exact (ih1 rel).trans (ih2 rel)

/-- The head component of a file path is an immediate child of the
root. -/
theorem fileAt_head_mem {t : FSTree} {c : Name} {rest : List Name}
    (h : FileAt t (c :: rest)) : c ∈ rootChildNames t := by
  cases t with
  | node dirs files =>
      cases rest with
      | nil =>
          have hc : c ∈ files := by simpa [FileAt] using h
          simp only [rootChildNames, List.mem_append]
          exact Or.inr hc
      | cons c2 rest2 =>
          obtain ⟨t2, ht2, -⟩ : ∃ t2, (c, t2) ∈ dirs ∧ FileAt t2 (c2 :: rest2) := by
            simpa [FileAt] using h
          simp only [rootChildNames, List.mem_append]
          exact Or.inl (List.mem_map.mpr ⟨(c, t2), ht2, rfl⟩)

/-- In a duplicate-free entry list every member occurs exactly once. -/
theorem count_one_of_nodup_mem {l : List (List Name)} {a : List Name}
    (hn : l.Nodup) (hm : a ∈ l) : l.count a = 1 := by
  induction l with
  | nil => simp at hm
  | cons b l ih =>
      rw [List.nodup_cons] at hn
      rcases List.mem_cons.mp hm with rfl | h2
      · rw [List.count_cons_self]
        have h0 : l.count a = 0 := List.count_eq_zero.mpr hn.1
        rw [h0]
      · have hne : a ≠ b := by
          rintro rfl
          exact hn.1 h2
        rw [List.count_cons_of_ne hne]
        exact ih hn.2 h2

/-! ## Claim theorems -/

/-- Claim C1: for every file under the source directory whose full path matches
no exclusion pattern and whose ancestor directory names match no pattern,
the archive produced by `create_package` contains exactly one entry for
that file, named by the file's path relative to the source directory. -/
theorem create_package_completeness (pats : List Name) (root : Name)
    (t : FSTree) (ex : Option (List (List Name))) (p : List Name)
    (hwf : WF t) (hfile : FileAt t p)
    (hdirs : ∀ d ∈ p.dropLast, should_exclude pats d = false)
    (hpath : should_exclude pats (pathStr (root :: p)) = false) :
    List.count p (((create_package pats root (some t) ex).archive).getD [])
      = 1 := by
  have harch : ((create_package pats root (some t) ex).archive).getD []
      = walkFrom pats root [] t := rfl
  rw [harch]
  refine count_one_of_nodup_mem (walkFrom_nodup pats root t hwf []) ?_
  refine (mem_walkFrom_iff pats root t [] p).mpr
    ⟨p, (List.nil_append p).symm, hfile, hdirs, ?_⟩
  simpa using hpath

/-- Witness for claim C1. -/
theorem create_package_completeness_witness :
    WF (.node [] ["metadata.json".data])
    ∧ FileAt (.node [] ["metadata.json".data]) ["metadata.json".data]
    ∧ List.count ["metadata.json".data]
        (((create_package EXCLUDE_PATTERNS EXTENSION_UUID
            (some (.node [] ["metadata.json".data])) none).archive).getD [])
        = 1 :=
  ⟨by simp [WF, WFDirs], by simp [FileAt],
   create_package_completeness EXCLUDE_PATTERNS EXTENSION_UUID
     (.node [] ["metadata.json".data]) none ["metadata.json".data]
     (by simp [WF, WFDirs]) (by simp [FileAt]) (by simp) (by decide)⟩

/-- Claim C2: a file whose path string contains an exclusion pattern gets
no archive entry (whether the pattern occurs in the full walk path or
already in the path relative to the source directory), and a path passing
through a directory whose *name* contains a pattern gets no entry either
(the subtree is pruned), even if nothing else about the path matches. -/
theorem create_package_exclusion (pats : List Name) (root : Name)
    (t : FSTree) (ex : Option (List (List Name))) (p : List Name) :
    (should_exclude pats (pathStr (root :: p)) = true →
      p ∉ ((create_package pats root (some t) ex).archive).getD [])
    ∧ (should_exclude pats (pathStr p) = true →
      p ∉ ((create_package pats root (some t) ex).archive).getD [])
    ∧ ((∃ d ∈ p.dropLast, should_exclude pats d = true) →
      p ∉ ((create_package pats root (some t) ex).archive).getD []) := by
  have harch : ((create_package pats root (some t) ex).archive).getD []
      = walkFrom pats root [] t := rfl
  rw [harch]
  have hfull : should_exclude pats (pathStr (root :: p)) = true →
      p ∉ walkFrom pats root [] t := by
    intro hex hmem
    obtain ⟨q, hq, -, -, hpath⟩ := (mem_walkFrom_iff pats root t [] p).mp hmem
    rw [List.nil_append] at hq
    subst hq
    rw [List.nil_append] at hpath
    rw [hex] at hpath
    cases hpath
  refine ⟨hfull, ?_, ?_⟩
  · intro hex hmem
    obtain ⟨q, hq, hfile, -, -⟩ := (mem_walkFrom_iff pats root t [] p).mp hmem
    rw [List.nil_append] at hq
    subst hq
    refine hfull ?_ hmem
    obtain ⟨pat, hpmem, hpsub⟩ := (should_exclude_iff pats _).mp hex
    exact (should_exclude_iff pats _).mpr
      ⟨pat, hpmem, hpsub.trans (pathStr_tail_substr root (fileAt_ne_nil hfile))⟩
  · rintro ⟨d, hd, hdex⟩ hmem
    obtain ⟨q, hq, -, hdirs, -⟩ := (mem_walkFrom_iff pats root t [] p).mp hmem
    rw [List.nil_append] at hq
    subst hq
    rw [hdirs d hd] at hdex
    cases hdex

/-- Witness for claim C2: `.git/config` is excluded both through its path and
through its directory name. -/
theorem create_package_exclusion_witness :
    should_exclude EXCLUDE_PATTERNS
        (pathStr [EXTENSION_UUID, ".git".data, "config".data]) = true
    ∧ (∃ d ∈ ([".git".data, "config".data] : List Name).dropLast,
        should_exclude EXCLUDE_PATTERNS d = true)
    ∧ [".git".data, "config".data]
        ∉ ((create_package EXCLUDE_PATTERNS EXTENSION_UUID
            (some (.node [(".git".data, .node [] ["config".data])] []))
            none).archive).getD [] :=
  ⟨by decide, by decide,
   (create_package_exclusion EXCLUDE_PATTERNS EXTENSION_UUID
      (.node [(".git".data, .node [] ["config".data])] []) none
      [".git".data, "config".data]).1 (by decide)⟩

/-- Claim C3: `create_package` returns a definite boolean: `false` exactly when
the source directory is missing, in which case the pre-existing file at
the output path (if any) is left untouched; it returns `true` whenever
the source directory exists. -/
theorem create_package_fail_fast (pats : List Name) (root : Name)
    (sourceDir : Option FSTree) (ex : Option (List (List Name))) :
    ((create_package pats root sourceDir ex).success = false ↔ sourceDir = none)
    ∧ ((create_package pats root sourceDir ex).success = true ↔ sourceDir ≠ none)
    ∧ (sourceDir = none → (create_package pats root sourceDir ex).archive = ex) := by
  cases sourceDir <;> simp [create_package]

/-- Witness for claim C3. -/
theorem create_package_fail_fast_witness :
    ((create_package EXCLUDE_PATTERNS EXTENSION_UUID none
        (some [["old".data]])).success = false ↔ (none : Option FSTree) = none)
    ∧ ((create_package EXCLUDE_PATTERNS EXTENSION_UUID none
        (some [["old".data]])).success = true ↔ (none : Option FSTree) ≠ none)
    ∧ ((none : Option FSTree) = none →
        (create_package EXCLUDE_PATTERNS EXTENSION_UUID none
          (some [["old".data]])).archive = some [["old".data]]) :=
  create_package_fail_fast EXCLUDE_PATTERNS EXTENSION_UUID none (some [["old".data]])

/-- Claim C5: the file at the output path after a run over an existing source
tree is exactly that run's archive, independent of what occupied the
output path before — in particular, running twice leaves only the second
run's entries, with nothing merged from the first. -/
theorem create_package_overwrite (pats : List Name) (root : Name)
    (t1 t2 : FSTree) (ex : Option (List (List Name))) :
    (create_package pats root (some t2)
        (create_package pats root (some t1) ex).archive).archive
      = some (walkFrom pats root [] t2)
    ∧ (create_package pats root (some t2)
        (create_package pats root (some t1) ex).archive)
      = create_package pats root (some t2) ex := by
  exact ⟨rfl, rfl⟩

/-- Claim C6: the exclusion test is asymmetric by level: an entry is produced
for `p` iff `p` is a file, no *directory name* along `p` contains a
pattern (such directories are pruned with their whole subtree), and the
file's *full path string* (which includes the walk root) contains no
pattern. -/
theorem walk_exclusion_asymmetry (pats : List Name) (root : Name)
    (t : FSTree) (ex : Option (List (List Name))) (p : List Name) :
    ((create_package pats root (some t) ex).archive
        = some (walkFrom pats root [] t))
    ∧ (p ∈ walkFrom pats root [] t ↔
        FileAt t p
        ∧ (∀ d ∈ p.dropLast, should_exclude pats d = false)
        ∧ should_exclude pats (pathStr (root :: p)) = false) := by
  refine ⟨rfl, ?_⟩
  rw [mem_walkFrom_iff]
  constructor
  · rintro ⟨q, hq, hfile, hdirs, hpath⟩
    rw [List.nil_append] at hq
    subst hq
    rw [List.nil_append] at hpath
    exact ⟨hfile, hdirs, hpath⟩
  · rintro ⟨hfile, hdirs, hpath⟩
    exact ⟨p, (List.nil_append p).symm, hfile, hdirs, by simpa using hpath⟩

/-- Claim C8: the set of included entry names is a deterministic function of
the directory contents and the patterns: walks of the same tree under any
two enumeration orders produce archives with permuted (hence equal as
sets) entry lists. -/
theorem create_package_deterministic (pats : List Name) (root : Name)
    (t1 t2 : FSTree) (ex1 ex2 : Option (List (List Name)))
    (h : TreeEquiv t1 t2) :
    ∃ e1 e2,
      (create_package pats root (some t1) ex1).archive = some e1
      ∧ (create_package pats root (some t2) ex2).archive = some e2
      ∧ e1.Perm e2 ∧ (∀ p, p ∈ e1 ↔ p ∈ e2) :=
  ⟨_, _, rfl, rfl, walkFrom_perm pats root t1 t2 h [],
   fun _ => (walkFrom_perm pats root t1 t2 h []).mem_iff⟩

/-- Witness for claim C8: two enumeration orders of the same two-file directory. -/
theorem create_package_deterministic_witness :
    TreeEquiv (.node [] ["a.js".data, "b.js".data])
        (.node [] ["b.js".data, "a.js".data])
    ∧ ∃ e1 e2,
        (create_package EXCLUDE_PATTERNS EXTENSION_UUID
          (some (.node [] ["a.js".data, "b.js".data])) none).archive = some e1
        ∧ (create_package EXCLUDE_PATTERNS EXTENSION_UUID
          (some (.node [] ["b.js".data, "a.js".data])) none).archive = some e2
        ∧ e1.Perm e2 ∧ (∀ p, p ∈ e1 ↔ p ∈ e2) :=
  ⟨.node (List.Perm.swap "b.js".data "a.js".data []) .nil,
   create_package_deterministic EXCLUDE_PATTERNS EXTENSION_UUID
     (.node [] ["a.js".data, "b.js".data])
     (.node [] ["b.js".data, "a.js".data]) none none
     (.node (List.Perm.swap "b.js".data "a.js".data []) .nil)⟩

/-- Claim C9: the file test sees the path including the walk root's name, so a
pattern that is a substring of the source directory's name excludes every
file: the archive is created empty and the run still returns success. -/
theorem create_package_root_pattern_empty (pats : List Name) (root : Name)
    (t : FSTree) (ex : Option (List (List Name))) (pat : Name)
    (hmem : pat ∈ pats) (hsub : pat <:+: root) :
    (create_package pats root (some t) ex).archive = some []
    ∧ (create_package pats root (some t) ex).success = true := by
  have hempty : walkFrom pats root [] t = [] := by
    rw [List.eq_nil_iff_forall_not_mem]
    intro p hp
    obtain ⟨q, -, -, -, hpath⟩ := (mem_walkFrom_iff pats root t [] p).mp hp
    have hex : should_exclude pats (pathStr (root :: ([] ++ q))) = true := by
      refine List.any_eq_true.mpr ⟨pat, hmem, ?_⟩
      exact decide_eq_true
        (hsub.trans (pathStr_substr_of_mem (List.mem_cons_self root _)))
    rw [hex] at hpath
    cases hpath
  constructor
  · show some (walkFrom pats root [] t) = some []
    rw [hempty]
  · rfl

/-- Witness for claim C9: pattern `".git"` is a substring of source directory name
`"repo.git"`, so even an innocent file is dropped. -/
theorem create_package_root_pattern_empty_witness :
    ".git".data ∈ [".git".data]
    ∧ ".git".data <:+: "repo.git".data
    ∧ (create_package [".git".data] "repo.git".data
        (some (.node [] ["config.js".data])) none).archive = some []
    ∧ (create_package [".git".data] "repo.git".data
        (some (.node [] ["config.js".data])) none).success = true :=
  ⟨by decide, by decide,
   (create_package_root_pattern_empty [".git".data] "repo.git".data
      (.node [] ["config.js".data]) none ".git".data (by decide) (by decide)).1,
   (create_package_root_pattern_empty [".git".data] "repo.git".data
      (.node [] ["config.js".data]) none ".git".data (by decide) (by decide)).2⟩

/-- Claim C10: when every file of an existing source directory is excluded (in
particular when there are no files at all), `create_package` still
creates a zero-entry archive, prints the success message, and returns
`true`. -/
theorem create_package_empty_success (pats : List Name) (root : Name)
    (t : FSTree) (ex : Option (List (List Name)))
    (h : ∀ p, FileAt t p →
      should_exclude pats (pathStr (root :: p)) = true) :
    (create_package pats root (some t) ex).success = true
    ∧ (create_package pats root (some t) ex).archive = some []
    ∧ Line.packageCreated ∈ (create_package pats root (some t) ex).output := by
  have hempty : walkFrom pats root [] t = [] := by
    rw [List.eq_nil_iff_forall_not_mem]
    intro p hp
    obtain ⟨q, -, hfile, -, hpath⟩ := (mem_walkFrom_iff pats root t [] p).mp hp
    rw [List.nil_append] at hpath
    rw [h q hfile] at hpath
    cases hpath
  refine ⟨rfl, ?_, ?_⟩
  · show some (walkFrom pats root [] t) = some []
    rw [hempty]
  · simp [create_package]

/-- Witness for claim C10: an empty source directory. -/
theorem create_package_empty_success_witness :
    (∀ p, FileAt (.node [] []) p →
      should_exclude EXCLUDE_PATTERNS (pathStr (EXTENSION_UUID :: p)) = true)
    ∧ (create_package EXCLUDE_PATTERNS EXTENSION_UUID
        (some (.node [] [])) none).success = true
    ∧ (create_package EXCLUDE_PATTERNS EXTENSION_UUID
        (some (.node [] [])) none).archive = some []
    ∧ Line.packageCreated ∈ (create_package EXCLUDE_PATTERNS EXTENSION_UUID
        (some (.node [] [])) none).output := by
  have h : ∀ p, FileAt (FSTree.node [] []) p →
      should_exclude EXCLUDE_PATTERNS (pathStr (EXTENSION_UUID :: p)) = true := by
    intro p hp
    exfalso
    cases p with
    | nil => simp [FileAt] at hp
    | cons c r =>
        cases r with
        | nil => simp [FileAt] at hp
        | cons c2 r2 => simp [FileAt] at hp
  exact ⟨h, create_package_empty_success EXCLUDE_PATTERNS EXTENSION_UUID
    (.node [] []) none h⟩

theorem printedEntries_append (l1 l2 : List Line) :
    printedEntries (l1 ++ l2) = printedEntries l1 ++ printedEntries l2 := by
  simp [printedEntries]

theorem printedEntries_added (es : List (List Name)) :
    printedEntries (List.map Line.added es) = [] := by
  simp only [printedEntries, List.filterMap_map]
  rw [List.filterMap_eq_nil_iff]
  intro a _
  rfl

theorem printedEntries_entryName (es : List (List Name)) :
    printedEntries (List.map Line.entryName es) = es := by
  simp only [printedEntries, List.filterMap_map]
  have hcomp : ((fun l => match l with
      | Line.entryName a => some a
      | _ => none) ∘ Line.entryName) = some := rfl
  rw [hcomp, List.filterMap_some]

theorem moreFilesCounts_append (l1 l2 : List Line) :
    moreFilesCounts (l1 ++ l2) = moreFilesCounts l1 ++ moreFilesCounts l2 := by
  simp [moreFilesCounts]

theorem moreFilesCounts_added (es : List (List Name)) :
    moreFilesCounts (List.map Line.added es) = [] := by
  simp only [moreFilesCounts, List.filterMap_map]
  rw [List.filterMap_eq_nil_iff]
  intro a _
  rfl

theorem moreFilesCounts_entryName (es : List (List Name)) :
    moreFilesCounts (List.map Line.entryName es) = [] := by
  simp only [moreFilesCounts, List.filterMap_map]
  rw [List.filterMap_eq_nil_iff]
  intro a _
  rfl

/-- Claim C7: the post-write summary prints exactly the first 20 entry names of
the reopened archive, and prints one remainder count (total − 20) exactly
when more than 20 entries exist. -/
theorem create_package_summary (pats : List Name) (root : Name) (t : FSTree)
    (ex : Option (List (List Name))) :
    printedEntries (create_package pats root (some t) ex).output
        = (walkFrom pats root [] t).take 20
    ∧ moreFilesCounts (create_package pats root (some t) ex).output
        = (if 20 < (walkFrom pats root [] t).length
           then [(walkFrom pats root [] t).length - 20] else []) := by
  constructor
  · simp only [create_package]
    simp only [printedEntries_append, printedEntries_added,
      printedEntries_entryName]
    by_cases hl : 20 < (walkFrom pats root [] t).length
    · rw [if_pos hl]
      simp [printedEntries]
    · rw [if_neg hl]
      simp [printedEntries]
  · simp only [create_package]
    simp only [moreFilesCounts_append, moreFilesCounts_added,
      moreFilesCounts_entryName]
    by_cases hl : 20 < (walkFrom pats root [] t).length
    · rw [if_pos hl, if_pos hl]
      simp [moreFilesCounts]
    · rw [if_neg hl, if_neg hl]
      simp [moreFilesCounts]

/-- Counterexample for claim C4: when the source directory contains a subdirectory
carrying the source directory's own name, the produced archive has an
entry nested under a top-level component equal to that name, refuting the
claim as stated. -/
theorem create_package_wrapper_counterexample :
    ∃ e ∈ ((create_package EXCLUDE_PATTERNS EXTENSION_UUID
        (some (.node [(EXTENSION_UUID, .node [] ["x".data])] []))
        none).archive).getD [],
      e.head? = some EXTENSION_UUID := by decide

/-- Claim C4 as amended: whenever no immediate child of the source directory is
itself named like the source directory, no archive entry name begins with
the source directory's name as a path component; the walk's own leading
source-directory component is always stripped by `relative_to`. -/
theorem create_package_no_wrapper_amended (pats : List Name) (root : Name)
    (t : FSTree) (ex : Option (List (List Name)))
    (h : root ∉ rootChildNames t) :
    ∀ e ∈ ((create_package pats root (some t) ex).archive).getD [],
      e.head? ≠ some root := by
  intro e he
  obtain ⟨q, rfl, hfile, -, -⟩ := (mem_walkFrom_iff pats root t [] e).mp he
  cases e with
  | nil => exact absurd rfl (fileAt_ne_nil hfile)
  | cons c rest =>
      intro hhead
      have hc : c = root := by simpa using hhead
      subst hc
      exact h (fileAt_head_mem hfile)

/-- Witness for claim C4 as amended. -/
theorem create_package_no_wrapper_amended_witness :
    EXTENSION_UUID ∉ rootChildNames (.node [] ["metadata.json".data])
    ∧ (["metadata.json".data] : List Name)
        ∈ ((create_package EXCLUDE_PATTERNS EXTENSION_UUID
            (some (.node [] ["metadata.json".data])) none).archive).getD []
    ∧ (["metadata.json".data] : List Name).head? ≠ some EXTENSION_UUID :=
  ⟨by decide, by decide,
   create_package_no_wrapper_amended EXCLUDE_PATTERNS EXTENSION_UUID
     (.node [] ["metadata.json".data]) none (by decide)
     ["metadata.json".data] (by decide)⟩

/-- Spec §8 scenario: `pkg/` with `metadata.json`, `lib/a.js`,
`.git/config`, `schemas/gschemas.compiled` packages exactly
`metadata.json` and `lib/a.js`. -/
example :
    walkFrom EXCLUDE_PATTERNS "pkg".data []
      (.node
        [("lib".data, .node [] ["a.js".data]),
         (".git".data, .node [] ["config".data]),
         ("schemas".data, .node [] ["gschemas.compiled".data])]
        ["metadata.json".data])
      = [["metadata.json".data], ["lib".data, "a.js".data]] := by decide

end ClipMaster
